import Mathlib

set_option maxHeartbeats 1000000

/-!
Verification of the namespace-registry core of `react-i18n-query`.

The registry encodes namespace descriptors (`{ id?, namespace, query? }`)
into tokens of the form `base` or `base$urlencodedquery` and provides
id-based and content-based lookups.  JS strings are modelled as `List Char`,
JS records (`Record<string, string>`) as association lists in insertion
order, JS `Map`s as association lists with insert-or-overwrite semantics,
and `undefined` as `Option.none`.
-/

/-- JS strings, modelled as lists of unicode scalar values. -/
abbrev JStr := List Char

/-- Decimal string of a natural number (JS template interpolation of an index). -/
def decimalString (n : Nat) : JStr := Nat.toDigits 10 n

/-! ## URL query-string encoding (`URLSearchParams`) -/

/-- UTF-8 encoding of one unicode scalar value given as a `Nat`. -/
def utf8EncodeChar (v : Nat) : List Nat :=
  if v < 0x80 then [v]
  else if v < 0x800 then [0xC0 + v / 64, 0x80 + v % 64]
  else if v < 0x10000 then [0xE0 + v / 4096, 0x80 + v / 64 % 64, 0x80 + v % 64]
  else [0xF0 + v / 262144, 0x80 + v / 4096 % 64, 0x80 + v / 64 % 64, 0x80 + v % 64]

/-- UTF-8 byte sequence of a modelled JS string. -/
def strToUtf8 (s : JStr) : List Nat := s.flatMap (fun c => utf8EncodeChar c.toNat)

/-- Uppercase hexadecimal digit for `n < 16`. -/
def hexDigitChar (n : Nat) : Char :=
  if n < 10 then Char.ofNat (48 + n) else Char.ofNat (55 + n)

/-- Bytes the form-urlencoded serializer leaves unescaped:
    `*`, `-`, `.`, `_`, ASCII digits and letters. -/
def isSafeByte (b : Nat) : Bool :=
  b == 0x2A || b == 0x2D || b == 0x2E || (0x30 ≤ b && b ≤ 0x39) ||
  (0x41 ≤ b && b ≤ 0x5A) || b == 0x5F || (0x61 ≤ b && b ≤ 0x7A)

/-- form-urlencoded serialization of one UTF-8 byte: space becomes `+`,
    safe bytes stay, everything else is percent-escaped. -/
def percentEncodeByte (b : Nat) : List Char :=
  if b = 0x20 then ['+']
  else if isSafeByte b then [Char.ofNat b]
  else ['%', hexDigitChar (b / 16), hexDigitChar (b % 16)]

/-- Percent-encoding of a whole string, as the `URLSearchParams` serializer does. -/
def urlencodeStr (s : JStr) : JStr := (strToUtf8 s).flatMap percentEncodeByte

/-- JS `Array.prototype.join` with a one-character separator. -/
def joinWith (sep : Char) : List JStr → JStr
  | [] => []
  | [x] => x
  | x :: xs => x ++ sep :: joinWith sep xs

/-- `new URLSearchParams(record).toString()` for a string-to-string record:
    `k=v` pairs in insertion order, joined by `&`, both sides percent-encoded. -/
def serializeQuery (q : List (JStr × JStr)) : JStr :=
  joinWith '&' (q.map (fun kv => urlencodeStr kv.1 ++ '=' :: urlencodeStr kv.2))

/-! ## URL query-string decoding -/

/-- Value of a hexadecimal digit byte (both cases accepted). -/
def hexValByte (b : Nat) : Option Nat :=
  if 0x30 ≤ b ∧ b ≤ 0x39 then some (b - 0x30)
  else if 0x41 ≤ b ∧ b ≤ 0x46 then some (b - 0x37)
  else if 0x61 ≤ b ∧ b ≤ 0x66 then some (b - 0x57)
  else none

/-- Percent-decoding at byte level: `%XX` triples collapse to one byte,
    malformed escapes pass through unchanged. -/
def percentDecodeBytes : List Nat → List Nat
  | [] => []
  | b :: b1 :: b2 :: rest2 =>
    if b = 0x25 then
      match hexValByte b1, hexValByte b2 with
      | some h1, some h2 => (16 * h1 + h2) :: percentDecodeBytes rest2
      | _, _ => b :: percentDecodeBytes (b1 :: b2 :: rest2)
    else b :: percentDecodeBytes (b1 :: b2 :: rest2)
  | b :: rest => b :: percentDecodeBytes rest

/-- Value of a UTF-8 continuation byte. -/
def contVal (b : Nat) : Option Nat :=
  if 0x80 ≤ b ∧ b < 0xC0 then some (b - 0x80) else none

/-- Decode one UTF-8 scalar: the value and the remaining bytes, or `none`
    on a truncated sequence, stray or missing continuation byte, overlong
    encoding, surrogate or out-of-range value. -/
def utf8DecodeStep (b : Nat) (rest : List Nat) : Option (Nat × List Nat) :=
  if b < 0x80 then some (b, rest)
  else if b < 0xC0 then none
  else if b < 0xE0 then
    match rest with
    | b2 :: rest2 =>
      (contVal b2).bind (fun v2 =>
        if 0x80 ≤ (b - 0xC0) * 64 + v2 then some ((b - 0xC0) * 64 + v2, rest2) else none)
    | [] => none
  else if b < 0xF0 then
    match rest with
    | b2 :: b3 :: rest2 =>
      (contVal b2).bind (fun v2 => (contVal b3).bind (fun v3 =>
        if 0x800 ≤ (b - 0xE0) * 4096 + v2 * 64 + v3 ∧
            ((b - 0xE0) * 4096 + v2 * 64 + v3 < 0xD800 ∨
              0xDFFF < (b - 0xE0) * 4096 + v2 * 64 + v3) then
          some ((b - 0xE0) * 4096 + v2 * 64 + v3, rest2)
        else none))
    | _ => none
  else if b < 0xF8 then
    match rest with
    | b2 :: b3 :: b4 :: rest2 =>
      (contVal b2).bind (fun v2 => (contVal b3).bind (fun v3 => (contVal b4).bind (fun v4 =>
        if 0x10000 ≤ (b - 0xF0) * 262144 + v2 * 4096 + v3 * 64 + v4 ∧
            (b - 0xF0) * 262144 + v2 * 4096 + v3 * 64 + v4 < 0x110000 then
          some ((b - 0xF0) * 262144 + v2 * 4096 + v3 * 64 + v4, rest2)
        else none)))
    | _ => none
  else none

/-- Fuel-bounded UTF-8 decoding loop; each step consumes at least one byte,
    so fuel equal to the byte count always suffices. -/
def utf8DecodeAux : Nat → List Nat → Option (List Char)
  | _, [] => some []
  | 0, _ :: _ => none
  | fuel + 1, b :: rest =>
    (utf8DecodeStep b rest).bind (fun p =>
      (utf8DecodeAux fuel p.2).map (fun cs => Char.ofNat p.1 :: cs))

/-- UTF-8 decoding of a byte sequence. -/
def utf8Decode (l : List Nat) : Option (List Char) :=
  utf8DecodeAux l.length l

/-- JS `String.prototype.split` with a one-character separator. -/
def splitOnChar (sep : Char) : JStr → List JStr
  | [] => [[]]
  | c :: rest =>
    if c = sep then [] :: splitOnChar sep rest
    else
      match splitOnChar sep rest with
      | h :: t => (c :: h) :: t
      | [] => [[c]]

/-- Split at the first occurrence of a character; `none` when it is absent. -/
def splitFirstOn (sep : Char) : JStr → Option (JStr × JStr)
  | [] => none
  | c :: rest =>
    if c = sep then some ([], rest)
    else (splitFirstOn sep rest).map (fun p => (c :: p.1, p.2))

/-- form-urlencoded decoding of one component:
    `+` to space, percent-decode the bytes, UTF-8 decode. -/
def decodeComponent (s : JStr) : JStr :=
  (utf8Decode (percentDecodeBytes (strToUtf8
    (s.map (fun c => if c = '+' then ' ' else c))))).getD []

/-- `new URLSearchParams(string)`: strip one leading `?`, split on `&`,
    drop empty pieces, split each piece on the first `=`, decode both sides. -/
def parseQuery (s : JStr) : List (JStr × JStr) :=
  let s2 := if s.head? = some ('?') then s.tail else s
  (splitOnChar '&' s2).filterMap (fun piece =>
    if piece = [] then none
    else
      match splitFirstOn '=' piece with
      | some kv => some (decodeComponent kv.1, decodeComponent kv.2)
      | none => some (decodeComponent piece, []))

/-! ## JS record and `Map` primitives -/

/-- Value of `record[key]` for a modelled record (`undefined` = `none`). -/
def jsLookup (q : List (JStr × JStr)) (k : JStr) : Option JStr :=
  (q.find? (fun kv => kv.1 = k)).map (fun kv => kv.2)

/-- JS `Map.prototype.set`: replace in place when the key exists, else append. -/
def mapSet (m : List (JStr × α)) (k : JStr) (v : α) : List (JStr × α) :=
  if m.any (fun kv => kv.1 = k) then
    m.map (fun kv => if kv.1 = k then (k, v) else kv)
  else m ++ [(k, v)]

/-- JS `Map.prototype.get`. -/
def mapGet (m : List (JStr × α)) (k : JStr) : Option α :=
  (m.find? (fun kv => kv.1 = k)).map (fun kv => kv.2)

/-- `new Map(entries)`: insert the entries in order. -/
def mapFromList (entries : List (JStr × α)) : List (JStr × α) :=
  entries.foldl (fun m kv => mapSet m kv.1 kv.2) []

/-! ## The registry of `createNsWithQuery` (main variant) -/

/-- `{ id?: string; namespace: string | string[]; query?: Record<string, string> }`. -/
structure NamespaceWithQuery where
  id : Option JStr := none
  «namespace» : JStr ⊕ List JStr
  query : Option (List (JStr × JStr)) := none

/-- `processNamespace`: serialize the query (defaulting to `{}`), then append
    `$queryString` to every base name exactly when the serialization is non-empty. -/
def processNamespace (n : NamespaceWithQuery) : List JStr :=
  let queryString := serializeQuery (n.query.getD [])
  match n.«namespace» with
  | Sum.inr arr => arr.map (fun ns => ns ++ if queryString = [] then [] else '$' :: queryString)
  | Sum.inl s => [s ++ if queryString = [] then [] else '$' :: queryString]

/-- `isQueryMatch(query1, query2)` with both parameters defaulting to `{}`:
    equal key counts, then every key of the first looked up in both.
    (The source's reference-equality shortcut `query1 === query2` returns
    `true` exactly when this scan would, so it needs no separate model.) -/
def isQueryMatch (query1 query2 : Option (List (JStr × JStr))) : Bool :=
  let q1 := query1.getD []
  let q2 := query2.getD []
  let keys1 := q1.map Prod.fst
  let keys2 := q2.map Prod.fst
  if keys1.length ≠ keys2.length then false
  else keys1.all (fun k => jsLookup q1 k == jsLookup q2 k)

/-- JS `===` between a `string | string[]` value and a `string`: value
    equality for two strings, always false between an array and a string. -/
def strictEqNs : JStr ⊕ List JStr → JStr → Bool
  | Sum.inl s, t => s = t
  | Sum.inr _, _ => false

/-- `item.id || `${index}``: an empty-string id is falsy and falls back
    to the decimal index, exactly like an absent id. -/
def descriptorKey (item : NamespaceWithQuery) (index : Nat) : JStr :=
  match item.id with
  | some s => if s = [] then decimalString index else s
  | none => decimalString index

/-- Result record of `createNsWithQuery`. -/
structure CreateNsResult where
  ns : List JStr
  getNsById : JStr → Option JStr
  getNs : JStr → List (JStr × JStr) → Option JStr

/-- The `namespaceMap` built by `createNsWithQuery`: one `Map.set` per
    descriptor, keyed by `item.id || `${index}``. -/
def buildNamespaceMap (l : List NamespaceWithQuery) : List (JStr × List JStr) :=
  l.enum.foldl (fun m p => mapSet m (descriptorKey p.2 p.1) (processNamespace p.2)) []

/-- `createNsWithQuery`: normalize to an array, build the namespace map,
    flatten its values into `ns`, cache `|`-joined values for `getNsById`,
    and scan the original descriptors for `getNs`. -/
def createNsWithQuery (ns : NamespaceWithQuery ⊕ List NamespaceWithQuery) : CreateNsResult :=
  let namespaceArray := match ns with
    | Sum.inr l => l
    | Sum.inl x => [x]
  let namespaceMap := buildNamespaceMap namespaceArray
  let flattenedNs := (namespaceMap.map (fun kv => kv.2)).flatten
  let nsByIdCache := mapFromList (namespaceMap.map (fun kv => (kv.1, joinWith '|' kv.2)))
  { ns := flattenedNs
    getNsById := fun id => mapGet nsByIdCache id
    getNs := fun nsName query =>
      (namespaceArray.find? (fun item =>
        strictEqNs item.«namespace» nsName && isQueryMatch item.query (some query))).map
        (fun found => joinWith '|' (processNamespace found)) }

/-! ## The `processNamespaces` variant (`utils.ts`) -/

namespace Utils

/-- `{ id?: string; namespace: string; query?: Record<string, string> }`. -/
structure NamespaceWithQuery where
  id : Option JStr := none
  «namespace» : JStr
  query : Option (List (JStr × JStr)) := none

/-- `processNamespace` of `utils.ts`: a single string result. -/
def processNamespace (n : NamespaceWithQuery) : JStr :=
  let queryString := serializeQuery (n.query.getD [])
  if queryString = [] then n.«namespace» else n.«namespace» ++ '$' :: queryString

/-- `isQueryMatch` of `utils.ts` (no reference-equality shortcut). -/
def isQueryMatch (query1 query2 : Option (List (JStr × JStr))) : Bool :=
  let q1 := query1.getD []
  let q2 := query2.getD []
  let keys1 := q1.map Prod.fst
  let keys2 := q2.map Prod.fst
  if keys1.length ≠ keys2.length then false
  else keys1.all (fun k => jsLookup q1 k == jsLookup q2 k)

/-- `item.id || `${index}`` for the `utils.ts` descriptor shape. -/
def descriptorKey (item : NamespaceWithQuery) (index : Nat) : JStr :=
  match item.id with
  | some s => if s = [] then decimalString index else s
  | none => decimalString index

/-- Result record of `processNamespaces`: `ns` is a bare string for a single
    descriptor and an array of strings for an array input. -/
structure ProcessNamespacesResult where
  ns : JStr ⊕ List JStr
  getNsById : JStr → Option JStr
  getNs : JStr → List (JStr × JStr) → Option JStr

/-- The `namespaceMap` of `processNamespaces` (array branch). -/
def buildNamespaceMap (l : List NamespaceWithQuery) : List (JStr × JStr) :=
  l.enum.foldl (fun m p => mapSet m (descriptorKey p.2 p.1) (processNamespace p.2)) []

/-- `processNamespaces`: a single descriptor collapses to a bare string with
    constant-`undefined` lookups; an array input builds the map and lookups. -/
def processNamespaces (ns : NamespaceWithQuery ⊕ List NamespaceWithQuery) :
    ProcessNamespacesResult :=
  match ns with
  | Sum.inl x =>
    { ns := Sum.inl (processNamespace x)
      getNsById := fun _ => none
      getNs := fun _ _ => none }
  | Sum.inr l =>
    let namespaceMap := buildNamespaceMap l
    { ns := Sum.inr (namespaceMap.map (fun kv => kv.2))
      getNsById := fun id => mapGet namespaceMap id
      getNs := fun nsName query =>
        (l.find? (fun item =>
          (decide (item.«namespace» = nsName)) && isQueryMatch item.query (some query))).map
          (fun found => processNamespace found) }

end Utils

/-! ## The backend's `splitNamespace` -/

namespace Backend

/-- `splitNamespace` of `NamespaceQueryHttpBackend`:
    `const [base, q] = ns.split('$'); return [base, q || '']`. -/
def splitNamespace (ns : JStr) : JStr × JStr :=
  let parts := splitOnChar '$' ns
  (parts.headI, parts.getD 1 [])

end Backend

/-! ## Auxiliary notions used by the claims -/

/-- Number of tokens a descriptor encodes to: one per element of an
    array-valued `namespace`, one for a string `namespace`. -/
def tokenCount (d : NamespaceWithQuery) : Nat :=
  match d.«namespace» with
  | Sum.inl _ => 1
  | Sum.inr arr => arr.length

/-- Spec-level equivalence of two parameter mappings: same number of
    entries, and every key of the first occurs in the second with an
    identical value. -/
def QueryEquiv (q1 q2 : List (JStr × JStr)) : Prop :=
  q1.length = q2.length ∧ ∀ k v, jsLookup q1 k = some v → jsLookup q2 k = some v

/-! ## Basic lemmas -/

theorem processNamespace_length (d : NamespaceWithQuery) :
    (processNamespace d).length = tokenCount d := by
  unfold processNamespace tokenCount
  cases d.«namespace» <;> simp

theorem jsLookup_eq_some (q : List (JStr × JStr)) (k : JStr) (v : JStr)
    (h : jsLookup q k = some v) : (k, v) ∈ q := by
  unfold jsLookup at h
  cases hf : q.find? (fun kv => kv.1 = k) with
  | none => rw [hf] at h; simp at h
  | some kv =>
    rw [hf] at h
    simp only [Option.map_some'] at h
    have hmem := List.mem_of_find?_eq_some hf
    have hp := List.find?_some hf
    simp only [decide_eq_true_eq] at hp
    have : kv = (k, v) := by
      cases kv; simp_all
    rw [this] at hmem; exact hmem

theorem mem_keys_of_jsLookup (q : List (JStr × JStr)) (k : JStr) (v : JStr)
    (h : jsLookup q k = some v) : k ∈ q.map Prod.fst := by
  have := jsLookup_eq_some q k v h
  exact List.mem_map.mpr ⟨(k, v), this, rfl⟩

theorem jsLookup_isSome (q : List (JStr × JStr)) (k : JStr)
    (h : k ∈ q.map Prod.fst) : ∃ v, jsLookup q k = some v := by
  obtain ⟨kv, hkv, hfst⟩ := List.mem_map.mp h
  have : (q.find? (fun kv => kv.1 = k)).isSome := by
    rw [List.find?_isSome]
    exact ⟨kv, hkv, by simp [hfst]⟩
  obtain ⟨res, hres⟩ := Option.isSome_iff_exists.mp this
  exact ⟨res.2, by unfold jsLookup; rw [hres]; rfl⟩

/-! ## `Map` lemmas -/

theorem mapSet_keys {α : Type} (m : List (JStr × α)) (k : JStr) (v : α) :
    (mapSet m k v).map Prod.fst =
      if m.any (fun kv => kv.1 = k) then m.map Prod.fst else m.map Prod.fst ++ [k] := by
  unfold mapSet
  split
  · rw [List.map_map]
    refine List.map_congr_left (fun x _ => ?_)
    by_cases hx : x.1 = k <;> simp [hx]
  · simp

theorem mapSet_keys_nodup {α : Type} (m : List (JStr × α)) (k : JStr) (v : α)
    (h : (m.map Prod.fst).Nodup) : ((mapSet m k v).map Prod.fst).Nodup := by
  rw [mapSet_keys]
  split
  · exact h
  · rename_i hany
    have hk : k ∉ m.map Prod.fst := by
      intro hk
      obtain ⟨kv, hkv, hf⟩ := List.mem_map.mp hk
      exact hany (List.any_eq_true.mpr ⟨kv, hkv, by simp [hf]⟩)
    simp [List.nodup_append, h, hk]

theorem mapSet_fresh {α : Type} (m : List (JStr × α)) (k : JStr) (v : α)
    (h : k ∉ m.map Prod.fst) : mapSet m k v = m ++ [(k, v)] := by
  have hc : ¬ (m.any (fun kv => kv.1 = k) = true) := by
    simp only [List.any_eq_true, decide_eq_true_eq]
    push_neg
    intro kv hkv hf
    exact h (List.mem_map.mpr ⟨kv, hkv, hf⟩)
  unfold mapSet
  rw [if_neg hc]

theorem foldl_mapSet_nodup {α β : Type} (f : β → JStr) (g : β → α) :
    ∀ (entries : List β) (acc : List (JStr × α)), (acc.map Prod.fst).Nodup →
      ((entries.foldl (fun m x => mapSet m (f x) (g x)) acc).map Prod.fst).Nodup
  | [], _, h => h
  | e :: rest, acc, h =>
    foldl_mapSet_nodup f g rest (mapSet acc (f e) (g e)) (mapSet_keys_nodup _ _ _ h)

theorem foldl_mapSet_fresh {α β : Type} (f : β → JStr) (g : β → α)
    (entries : List β) :
    ∀ (acc : List (JStr × α)),
      (acc.map Prod.fst ++ entries.map f).Nodup →
      entries.foldl (fun m x => mapSet m (f x) (g x)) acc =
        acc ++ entries.map (fun x => (f x, g x)) := by
  induction entries with
  | nil => intro acc _; simp
  | cons e rest ih =>
    intro acc h
    have hdisj := List.disjoint_of_nodup_append h
    have hfresh : f e ∉ acc.map Prod.fst :=
      fun hmem => hdisj hmem (by simp)
    rw [List.foldl_cons, mapSet_fresh _ _ _ hfresh, ih]
    · simp
    · simpa [List.append_assoc] using h

theorem mapFromList_eq_self {α : Type} (entries : List (JStr × α))
    (h : (entries.map Prod.fst).Nodup) : mapFromList entries = entries := by
  unfold mapFromList
  have := foldl_mapSet_fresh (α := α) (β := JStr × α) Prod.fst Prod.snd entries []
    (by simpa using h)
  simpa using this

theorem buildNamespaceMap_eq (l : List NamespaceWithQuery)
    (h : (l.enum.map (fun p => descriptorKey p.2 p.1)).Nodup) :
    buildNamespaceMap l =
      l.enum.map (fun p => (descriptorKey p.2 p.1, processNamespace p.2)) := by
  unfold buildNamespaceMap
  have := foldl_mapSet_fresh (fun p : Nat × NamespaceWithQuery => descriptorKey p.2 p.1)
    (fun p => processNamespace p.2) l.enum [] (by simpa using h)
  simpa using this

theorem buildNamespaceMap_keys_nodup (l : List NamespaceWithQuery) :
    ((buildNamespaceMap l).map Prod.fst).Nodup := by
  unfold buildNamespaceMap
  exact foldl_mapSet_nodup _ _ l.enum [] (by simp)

theorem mapGet_eq_none {α : Type} (m : List (JStr × α)) (k : JStr) :
    mapGet m k = none ↔ k ∉ m.map Prod.fst := by
  unfold mapGet
  rw [Option.map_eq_none', List.find?_eq_none]
  constructor
  · intro h hk
    obtain ⟨kv, hkv, hf⟩ := List.mem_map.mp hk
    have hp := h kv hkv
    simp only [decide_eq_true_eq] at hp
    exact hp hf
  · intro h kv hkv
    simp only [decide_eq_true_eq] at *
    intro hf
    exact h (List.mem_map.mpr ⟨kv, hkv, hf⟩)

theorem mapGet_of_mem {α : Type} (m : List (JStr × α)) (k : JStr) (v : α)
    (hnd : (m.map Prod.fst).Nodup) (hmem : (k, v) ∈ m) : mapGet m k = some v := by
  induction m with
  | nil => simp at hmem
  | cons kv rest ih =>
    have hnd2 : (kv.1 :: rest.map Prod.fst).Nodup := hnd
    have hnotin : kv.1 ∉ rest.map Prod.fst := (List.nodup_cons.mp hnd2).1
    have hndrest : (rest.map Prod.fst).Nodup := (List.nodup_cons.mp hnd2).2
    rcases List.mem_cons.mp hmem with heq | hrest
    · unfold mapGet
      rw [List.find?_cons_of_pos _ (by simp [← heq])]
      simp [← heq]
    · have hk : kv.1 ≠ k := fun hkk =>
        hnotin (by rw [hkk]; exact List.mem_map.mpr ⟨(k, v), hrest, rfl⟩)
      unfold mapGet at ih ⊢
      rw [List.find?_cons_of_neg _ (by simp [hk])]
      exact ih hndrest hrest

/-! ## Claim theorems: encoding shape -/

/-- C6: for an array-valued `namespace`, `processNamespace` produces one token
    per element in element order, each carrying the same serialized query
    string; on `[{namespace: ["a","b"], query: {k:"v"}}]` the registry's `ns`
    is `["a$k=v", "b$k=v"]` and `getNsById "0"` is `"a$k=v|b$k=v"`. -/
theorem multi_token_expansion :
    (∀ (arr : List JStr) (id? : Option JStr) (q : Option (List (JStr × JStr))),
      processNamespace { id := id?, «namespace» := Sum.inr arr, query := q } =
        arr.map (fun b => b ++
          (if serializeQuery (q.getD []) = [] then [] else '$' :: serializeQuery (q.getD [])))) ∧
    (createNsWithQuery (Sum.inr
      [{ id := none
         «namespace» := Sum.inr [("a".toList), ("b".toList)]
         query := some [(("k".toList), ("v".toList))] }])).ns =
      [("a$k=v".toList), ("b$k=v".toList)] ∧
    (createNsWithQuery (Sum.inr
      [{ id := none
         «namespace» := Sum.inr [("a".toList), ("b".toList)]
         query := some [(("k".toList), ("v".toList))] }])).getNsById ("0".toList) =
      some ("a$k=v|b$k=v".toList) := by
  refine ⟨fun arr id? q => rfl, by decide, by decide⟩

/-- C7: a descriptor with an absent or empty query encodes to exactly its
    base namespace string, with no `$` appended (both variants). -/
theorem empty_query_identity (b : JStr) (id? : Option JStr)
    (q? : Option (List (JStr × JStr))) (h : q? = none ∨ q? = some []) :
    processNamespace { id := id?, «namespace» := Sum.inl b, query := q? } = [b] ∧
    Utils.processNamespace { id := id?, «namespace» := b, query := q? } = b := by
  rcases h with h | h <;> subst h <;>
    exact ⟨by simp [processNamespace, serializeQuery, joinWith],
      by simp [Utils.processNamespace, serializeQuery, joinWith]⟩

/-- Witness for C7 at `b = "a"`, absent query. -/
theorem empty_query_identity_witness :
    ((none : Option (List (JStr × JStr))) = none ∨
      (none : Option (List (JStr × JStr))) = some []) ∧
    (processNamespace { id := none, «namespace» := Sum.inl ("a".toList), query := none } =
        [("a".toList)] ∧
      Utils.processNamespace { id := none, «namespace» := ("a".toList), query := none } =
        ("a".toList)) :=
  ⟨Or.inl rfl, empty_query_identity ("a".toList) none none (Or.inl rfl)⟩

/-- C9: in the `processNamespaces` variant, a single (non-array) descriptor
    collapses to a bare string `ns`, and both lookup helpers are constant
    not-found. -/
theorem single_descriptor_collapse (x : Utils.NamespaceWithQuery) :
    (Utils.processNamespaces (Sum.inl x)).ns = Sum.inl (Utils.processNamespace x) ∧
    (∀ id, (Utils.processNamespaces (Sum.inl x)).getNsById id = none) ∧
    (∀ n q, (Utils.processNamespaces (Sum.inl x)).getNs n q = none) :=
  ⟨rfl, fun _ => rfl, fun _ _ => rfl⟩

/-! ## Claim theorems: flattened length (C1) -/

theorem length_flatten_map_snd (f : Nat × NamespaceWithQuery → JStr) :
    ∀ (n : Nat) (l : List NamespaceWithQuery),
      (((l.enumFrom n).map (fun p => (f p, processNamespace p.2))).map
        (fun kv => kv.2)).flatten.length = (l.map tokenCount).sum := by
  intro n l
  induction l generalizing n with
  | nil => rfl
  | cons x xs ih =>
    simp only [List.enumFrom_cons, List.map_cons, List.flatten_cons,
      List.length_append, List.sum_cons]
    rw [processNamespace_length, ih]

/-- C1 (amended): the length of the flattened `ns` equals the sum of
    per-descriptor token counts, provided the descriptors' effective map keys
    (`id` when present and non-empty, else the decimal index) are pairwise
    distinct.  With a duplicated key the `Map` overwrites the earlier entry
    and the equality fails (see the counterexample). -/
theorem registry_flattened_length (l : List NamespaceWithQuery)
    (h : (l.enum.map (fun p => descriptorKey p.2 p.1)).Nodup) :
    (createNsWithQuery (Sum.inr l)).ns.length = (l.map tokenCount).sum := by
  have hns : (createNsWithQuery (Sum.inr l)).ns =
      ((buildNamespaceMap l).map (fun kv => kv.2)).flatten := rfl
  rw [hns, buildNamespaceMap_eq l h]
  exact length_flatten_map_snd _ 0 l

/-- Witness for C1 on two descriptors with distinct keys, one of them
    array-valued. -/
theorem registry_flattened_length_witness :
    (([{ id := none, «namespace» := Sum.inl ("a".toList) },
       { id := some ("x".toList), «namespace» := Sum.inr [("b".toList), ("c".toList)] }] :
      List NamespaceWithQuery).enum.map (fun p => descriptorKey p.2 p.1)).Nodup ∧
    (createNsWithQuery (Sum.inr
      [{ id := none, «namespace» := Sum.inl ("a".toList) },
       { id := some ("x".toList),
         «namespace» := Sum.inr [("b".toList), ("c".toList)] }])).ns.length =
      ([{ id := none, «namespace» := Sum.inl ("a".toList) },
        { id := some ("x".toList),
          «namespace» := Sum.inr [("b".toList), ("c".toList)] }].map tokenCount).sum :=
  ⟨by decide, registry_flattened_length _ (by decide)⟩

/-- C1 counterexample: two descriptors sharing the id `"x"`: the second
    `Map.set` overwrites the first entry, so the flattened `ns` has length 1
    while the per-descriptor token counts sum to 2. -/
theorem registry_flattened_length_cex :
    ¬ ((createNsWithQuery (Sum.inr
        [{ id := some ("x".toList), «namespace» := Sum.inl ("a".toList) },
         { id := some ("x".toList), «namespace» := Sum.inl ("b".toList) }])).ns.length =
      ([{ id := some ("x".toList), «namespace» := Sum.inl ("a".toList) },
        { id := some ("x".toList),
          «namespace» := Sum.inl ("b".toList) }].map tokenCount).sum) := by
  decide

/-! ## Claim theorems: id keying (C3) -/

theorem nsByIdCache_eq (l : List NamespaceWithQuery) :
    mapFromList ((buildNamespaceMap l).map (fun kv => (kv.1, joinWith '|' kv.2))) =
      (buildNamespaceMap l).map (fun kv => (kv.1, joinWith '|' kv.2)) := by
  apply mapFromList_eq_self
  have h := buildNamespaceMap_keys_nodup l
  simpa [List.map_map, Function.comp] using h

theorem getNsById_eq (l : List NamespaceWithQuery) (id : JStr) :
    (createNsWithQuery (Sum.inr l)).getNsById id =
      mapGet ((buildNamespaceMap l).map (fun kv => (kv.1, joinWith '|' kv.2))) id := by
  have h : (createNsWithQuery (Sum.inr l)).getNsById id =
      mapGet (mapFromList ((buildNamespaceMap l).map
        (fun kv => (kv.1, joinWith '|' kv.2)))) id := rfl
  rw [h, nsByIdCache_eq]

/-- C3 counterexample: a descriptor with the explicit id `""`: since the
    empty string is falsy, `item.id || `${index}`` keys the entry under
    `"0"`, not under `""`, contradicting the claim's parenthetical. -/
theorem lookup_keying_rule_cex :
    (createNsWithQuery (Sum.inr
      ([{ id := some [], «namespace» := Sum.inl ("a".toList) }] :
        List NamespaceWithQuery))).getNsById [] = none ∧
    (createNsWithQuery (Sum.inr
      ([{ id := some [], «namespace» := Sum.inl ("a".toList) }] :
        List NamespaceWithQuery))).getNsById ("0".toList) = some ("a".toList) := by
  constructor <;> decide

/-- C3 (amended): a descriptor's token list is recorded under its id exactly
    when the id is present and non-empty, else under the decimal index.
    With pairwise-distinct effective keys, `getNsById` of a descriptor's
    effective key returns its `|`-joined tokens, and `getNsById` of a decimal
    index that is no descriptor's effective key (in particular the index of a
    descriptor carrying a non-empty explicit id, when unclaimed by others)
    returns not-found. -/
theorem lookup_keying_rule (l : List NamespaceWithQuery)
    (hnd : (l.enum.map (fun p => descriptorKey p.2 p.1)).Nodup) :
    (∀ i (hi : i < l.length),
      (createNsWithQuery (Sum.inr l)).getNsById (descriptorKey (l.get ⟨i, hi⟩) i) =
        some (joinWith '|' (processNamespace (l.get ⟨i, hi⟩)))) ∧
    (∀ i (hi : i < l.length) (s : JStr), (l.get ⟨i, hi⟩).id = some s → s ≠ [] →
      (∀ j (hj : j < l.length), descriptorKey (l.get ⟨j, hj⟩) j ≠ decimalString i) →
      (createNsWithQuery (Sum.inr l)).getNsById (decimalString i) = none) := by
  constructor
  · intro i hi
    rw [getNsById_eq, buildNamespaceMap_eq l hnd, List.map_map]
    apply mapGet_of_mem
    · simpa [List.map_map, Function.comp] using hnd
    · refine List.mem_map.mpr ⟨(i, l.get ⟨i, hi⟩), ?_, rfl⟩
      refine List.mem_enum_iff_getElem?.mpr ?_
      exact List.getElem?_eq_getElem hi
  · intro i hi s _ _ hkeys
    rw [getNsById_eq, buildNamespaceMap_eq l hnd, List.map_map]
    apply (mapGet_eq_none _ _).mpr
    intro hmem
    rw [List.map_map] at hmem
    obtain ⟨p, hp, heq⟩ := List.mem_map.mp hmem
    have heq2 : descriptorKey p.2 p.1 = decimalString i := heq
    have h1 : p.1 < l.length := List.fst_lt_of_mem_enum hp
    have h2 : l[p.1]? = some p.2 := List.mem_enum_iff_getElem?.mp hp
    have h3 : l.get ⟨p.1, h1⟩ = p.2 := by
      rw [List.getElem?_eq_getElem h1] at h2
      simpa using h2
    exact hkeys p.1 h1 (by rw [h3]; exact heq2)

/-- Witness for C3 on one descriptor with the non-empty id `"x"`. -/
theorem lookup_keying_rule_witness :
    (([{ id := some ("x".toList), «namespace» := Sum.inl ("a".toList) }] :
      List NamespaceWithQuery).enum.map (fun p => descriptorKey p.2 p.1)).Nodup ∧
    (createNsWithQuery (Sum.inr
      ([{ id := some ("x".toList), «namespace» := Sum.inl ("a".toList) }] :
        List NamespaceWithQuery))).getNsById
      (descriptorKey { id := some ("x".toList), «namespace» := Sum.inl ("a".toList) } 0) =
      some (joinWith '|' (processNamespace
        { id := some ("x".toList), «namespace» := Sum.inl ("a".toList) })) :=
  ⟨by decide, (lookup_keying_rule _ (by decide)).1 0 (by decide)⟩

/-! ## Claim theorems: query equivalence (C5) -/

theorem isQueryMatch_iff (q1? q2? : Option (List (JStr × JStr))) :
    isQueryMatch q1? q2? = true ↔ QueryEquiv (q1?.getD []) (q2?.getD []) := by
  unfold isQueryMatch QueryEquiv
  constructor
  · intro h
    simp only [] at h
    split at h
    · exact absurd h (by simp)
    · rename_i hlen
      push_neg at hlen
      refine ⟨by simpa using hlen, ?_⟩
      intro k v hk
      have hkmem : k ∈ (q1?.getD []).map Prod.fst := mem_keys_of_jsLookup _ k v hk
      have hall := List.all_eq_true.mp h k hkmem
      rw [beq_iff_eq] at hall
      rw [← hall]
      exact hk
  · rintro ⟨hlen, himp⟩
    rw [if_neg (by simpa using hlen)]
    refine List.all_eq_true.mpr ?_
    intro k hkmem
    obtain ⟨v, hv⟩ := jsLookup_isSome _ k hkmem
    rw [beq_iff_eq, hv, himp k v hv]

theorem queryEquiv_symm (q1 q2 : List (JStr × JStr))
    (h1 : (q1.map Prod.fst).Nodup) (h : QueryEquiv q1 q2) : QueryEquiv q2 q1 := by
  obtain ⟨hlen, himp⟩ := h
  have hsub : q1.map Prod.fst ⊆ q2.map Prod.fst := by
    intro k hk
    obtain ⟨v, hv⟩ := jsLookup_isSome _ k hk
    exact mem_keys_of_jsLookup _ k v (himp k v hv)
  have hperm : List.Perm (q1.map Prod.fst) (q2.map Prod.fst) := by
    refine (List.subperm_of_subset h1 hsub).perm_of_length_le ?_
    simp [hlen]
  refine ⟨hlen.symm, ?_⟩
  intro k v hv
  have hk2 : k ∈ q2.map Prod.fst := mem_keys_of_jsLookup _ k v hv
  have hk1 : k ∈ q1.map Prod.fst := hperm.mem_iff.mpr hk2
  obtain ⟨v1, hv1⟩ := jsLookup_isSome _ k hk1
  have hq2 : jsLookup q2 k = some v1 := himp k v1 hv1
  rw [hv] at hq2
  rw [(Option.some.inj hq2).symm] at hv1
  exact hv1

/-- C5: `isQueryMatch` returns true exactly when the two mappings have the
    same number of keys and every key of the first occurs in the second with
    an identical value; on mappings (no duplicate keys) it is symmetric.
    The `utils.ts` variant computes the same function. -/
theorem query_equivalence (q1 q2 : List (JStr × JStr))
    (h1 : (q1.map Prod.fst).Nodup) (h2 : (q2.map Prod.fst).Nodup) :
    (isQueryMatch (some q1) (some q2) = true ↔ QueryEquiv q1 q2) ∧
    isQueryMatch (some q1) (some q2) = isQueryMatch (some q2) (some q1) ∧
    Utils.isQueryMatch (some q1) (some q2) = isQueryMatch (some q1) (some q2) := by
  refine ⟨isQueryMatch_iff (some q1) (some q2), ?_, rfl⟩
  cases hb : isQueryMatch (some q1) (some q2) with
  | true =>
    have he := (isQueryMatch_iff (some q1) (some q2)).mp hb
    have hs := queryEquiv_symm q1 q2 h1 he
    exact ((isQueryMatch_iff (some q2) (some q1)).mpr hs).symm
  | false =>
    cases hb2 : isQueryMatch (some q2) (some q1) with
    | false => rfl
    | true =>
      have he := (isQueryMatch_iff (some q2) (some q1)).mp hb2
      have hs := queryEquiv_symm q2 q1 h2 he
      rw [← hb, (isQueryMatch_iff (some q1) (some q2)).mpr hs]

/-- Witness for C5 on the mappings `{a: "1"}` and `{a: "1", b: "2"}`. -/
theorem query_equivalence_witness :
    (([(("a".toList), ("1".toList))] :
        List (JStr × JStr)).map Prod.fst).Nodup ∧
    (([(("a".toList), ("1".toList)), (("b".toList), ("2".toList))] :
        List (JStr × JStr)).map Prod.fst).Nodup ∧
    ((isQueryMatch (some [(("a".toList), ("1".toList))])
        (some [(("a".toList), ("1".toList)), (("b".toList), ("2".toList))]) = true ↔
      QueryEquiv [(("a".toList), ("1".toList))]
        [(("a".toList), ("1".toList)), (("b".toList), ("2".toList))]) ∧
    isQueryMatch (some [(("a".toList), ("1".toList))])
        (some [(("a".toList), ("1".toList)), (("b".toList), ("2".toList))]) =
      isQueryMatch (some [(("a".toList), ("1".toList)), (("b".toList), ("2".toList))])
        (some [(("a".toList), ("1".toList))]) ∧
    Utils.isQueryMatch (some [(("a".toList), ("1".toList))])
        (some [(("a".toList), ("1".toList)), (("b".toList), ("2".toList))]) =
      isQueryMatch (some [(("a".toList), ("1".toList))])
        (some [(("a".toList), ("1".toList)), (("b".toList), ("2".toList))])) :=
  ⟨by decide, by decide, query_equivalence _ _ (by decide) (by decide)⟩

/-! ## Claim theorems: match lookup (C4) -/

theorem find?_first {α : Type} (p : α → Bool) :
    ∀ (l : List α) (i : Nat) (hi : i < l.length), p (l.get ⟨i, hi⟩) = true →
      (∀ j (hj : j < l.length), j < i → p (l.get ⟨j, hj⟩) = false) →
      l.find? p = some (l.get ⟨i, hi⟩)
  | x :: t, 0, _, hp, _ => by
    have hp2 : p x = true := hp
    rw [List.find?_cons_of_pos _ hp2]
    rfl
  | x :: t, i + 1, hi, hp, hmin => by
    have hx : p x = false := hmin 0 (by simp) (by omega)
    rw [List.find?_cons_of_neg _ (by simp [hx])]
    exact find?_first p t i (by simpa using hi) hp
      (fun j hj hji => hmin (j + 1) (by simpa using hj) (by omega))

/-- C4: `getNs` scans the original descriptors in input order and returns the
    `|`-joined token(s) of the first descriptor whose `namespace` is strictly
    (`===`) equal to the searched name and whose query mapping is equivalent
    to the searched parameters; when no descriptor satisfies both, it returns
    not-found. -/
theorem match_lookup (l : List NamespaceWithQuery) (name : JStr)
    (q : List (JStr × JStr)) :
    ((∀ item ∈ l, ¬ (strictEqNs item.«namespace» name = true ∧
        QueryEquiv (item.query.getD []) q)) →
      (createNsWithQuery (Sum.inr l)).getNs name q = none) ∧
    (∀ i (hi : i < l.length),
      (strictEqNs (l.get ⟨i, hi⟩).«namespace» name = true ∧
        QueryEquiv ((l.get ⟨i, hi⟩).query.getD []) q) →
      (∀ j (hj : j < l.length), j < i →
        ¬ (strictEqNs (l.get ⟨j, hj⟩).«namespace» name = true ∧
          QueryEquiv ((l.get ⟨j, hj⟩).query.getD []) q)) →
      (createNsWithQuery (Sum.inr l)).getNs name q =
        some (joinWith '|' (processNamespace (l.get ⟨i, hi⟩)))) := by
  have hgetNs : (createNsWithQuery (Sum.inr l)).getNs name q =
      (l.find? (fun item =>
        strictEqNs item.«namespace» name && isQueryMatch item.query (some q))).map
        (fun found => joinWith '|' (processNamespace found)) := rfl
  have hpred : ∀ item : NamespaceWithQuery,
      (strictEqNs item.«namespace» name && isQueryMatch item.query (some q)) = true ↔
      (strictEqNs item.«namespace» name = true ∧ QueryEquiv (item.query.getD []) q) := by
    intro item
    rw [Bool.and_eq_true, isQueryMatch_iff]
    rfl
  constructor
  · intro hnone
    rw [hgetNs]
    have hfind : l.find? (fun item =>
        strictEqNs item.«namespace» name && isQueryMatch item.query (some q)) = none := by
      rw [List.find?_eq_none]
      intro item hitem hcontra
      exact hnone item hitem ((hpred item).mp hcontra)
    rw [hfind]
    rfl
  · intro i hi hp hmin
    rw [hgetNs, find?_first _ l i hi ((hpred _).mpr hp) ?_]
    · rfl
    · intro j hj hji
      cases hb : (strictEqNs (l.get ⟨j, hj⟩).«namespace» name &&
          isQueryMatch (l.get ⟨j, hj⟩).query (some q)) with
      | false => rfl
      | true => exact absurd ((hpred _).mp hb) (hmin j hj hji)

/-- Witness for C4: one descriptor `{name: "comments", query: {postId: "5"}}`,
    matched exactly and missed on an extra key. -/
theorem match_lookup_witness :
    (createNsWithQuery (Sum.inr
      ([{ id := none, «namespace» := Sum.inl ("comments".toList),
          query := some [(("postId".toList), ("5".toList))] }] :
        List NamespaceWithQuery))).getNs ("comments".toList)
      [(("postId".toList), ("5".toList)), (("extra".toList), ("x".toList))] = none ∧
    (createNsWithQuery (Sum.inr
      ([{ id := none, «namespace» := Sum.inl ("comments".toList),
          query := some [(("postId".toList), ("5".toList))] }] :
        List NamespaceWithQuery))).getNs ("comments".toList)
      [(("postId".toList), ("5".toList))] =
      some (joinWith '|' (processNamespace
        { id := none, «namespace» := Sum.inl ("comments".toList),
          query := some [(("postId".toList), ("5".toList))] })) := by
  constructor
  · refine (match_lookup _ _ _).1 ?_
    intro item hitem
    rintro ⟨-, hlen, -⟩
    rw [List.mem_singleton] at hitem
    subst hitem
    exact absurd hlen (by decide)
  · refine (match_lookup _ _ _).2 0 (by decide) ⟨by decide, ?_, ?_⟩ ?_
    · rfl
    · intro k v hv
      exact hv
    · intro j hj hj0
      exact absurd hj0 (by omega)

/-! ## Claim theorems: absent query defaults to empty (C10) -/

/-- C10: a descriptor with no `query` field behaves as `{}` in match lookup:
    since `isQueryMatch` defaults an absent argument to the empty mapping,
    `getNs` with the same name and the empty mapping finds a descriptor with
    an absent-or-empty query and returns its encoded token(s). -/
theorem absent_query_default_match (l : List NamespaceWithQuery) (n : JStr)
    (h : ∃ item ∈ l, item.«namespace» = Sum.inl n ∧ item.query = none) :
    ∃ item ∈ l, strictEqNs item.«namespace» n = true ∧ item.query.getD [] = [] ∧
      (createNsWithQuery (Sum.inr l)).getNs n [] =
        some (joinWith '|' (processNamespace item)) := by
  obtain ⟨item0, hmem0, hns0, hq0⟩ := h
  have hfind : (l.find? (fun item =>
      strictEqNs item.«namespace» n && isQueryMatch item.query (some []))).isSome := by
    rw [List.find?_isSome]
    refine ⟨item0, hmem0, ?_⟩
    rw [hns0, hq0]
    simp [strictEqNs, isQueryMatch]
  obtain ⟨res, hres⟩ := Option.isSome_iff_exists.mp hfind
  have hresmem := List.mem_of_find?_eq_some hres
  have hrespred := List.find?_some hres
  rw [Bool.and_eq_true] at hrespred
  refine ⟨res, hresmem, hrespred.1, ?_, ?_⟩
  · have h2 := (isQueryMatch_iff res.query (some [])).mp hrespred.2
    have hlen := h2.1
    simp only [Option.getD_some, List.length_nil] at hlen
    exact List.eq_nil_of_length_eq_zero hlen
  · have hg : (createNsWithQuery (Sum.inr l)).getNs n [] =
        (l.find? (fun item =>
          strictEqNs item.«namespace» n && isQueryMatch item.query (some []))).map
          (fun found => joinWith '|' (processNamespace found)) := rfl
    rw [hg, hres]
    rfl

/-- Witness for C10 on `[{namespace: "a"}]` (query absent). -/
theorem absent_query_default_match_witness :
    (∃ item ∈ ([{ id := none, «namespace» := Sum.inl ("a".toList), query := none }] :
        List NamespaceWithQuery),
      item.«namespace» = Sum.inl ("a".toList) ∧ item.query = none) ∧
    (∃ item ∈ ([{ id := none, «namespace» := Sum.inl ("a".toList), query := none }] :
        List NamespaceWithQuery),
      strictEqNs item.«namespace» ("a".toList) = true ∧ item.query.getD [] = [] ∧
      (createNsWithQuery (Sum.inr
        ([{ id := none, «namespace» := Sum.inl ("a".toList), query := none }] :
          List NamespaceWithQuery))).getNs ("a".toList) [] =
        some (joinWith '|' (processNamespace item))) :=
  ⟨⟨_, List.mem_cons_self _ _, rfl, rfl⟩,
    absent_query_default_match _ _ ⟨_, List.mem_cons_self _ _, rfl, rfl⟩⟩

/-! ## Claim theorems: absence as the not-found sentinel (C8) -/

/-- C8: in this model every registry operation is a total function into an
    option type; a missing lookup is exactly the `none` sentinel, never an
    error value: `getNsById` returns `none` precisely when the key is not in
    the namespace map, and `getNs` returns `none` precisely when no
    descriptor passes the name-and-query scan (both variants). -/
theorem absence_not_found (l : List NamespaceWithQuery) (id name : JStr)
    (q : List (JStr × JStr)) (ul : List Utils.NamespaceWithQuery) :
    ((createNsWithQuery (Sum.inr l)).getNsById id = none ↔
      id ∉ (buildNamespaceMap l).map Prod.fst) ∧
    ((createNsWithQuery (Sum.inr l)).getNs name q = none ↔
      ∀ item ∈ l, ¬ (strictEqNs item.«namespace» name = true ∧
        isQueryMatch item.query (some q) = true)) ∧
    ((Utils.processNamespaces (Sum.inr ul)).getNsById id = none ↔
      id ∉ (Utils.buildNamespaceMap ul).map Prod.fst) ∧
    ((Utils.processNamespaces (Sum.inr ul)).getNs name q = none ↔
      ∀ item ∈ ul, ¬ (item.«namespace» = name ∧
        Utils.isQueryMatch item.query (some q) = true)) := by
  refine ⟨?_, ?_, ?_, ?_⟩
  · rw [getNsById_eq, mapGet_eq_none, List.map_map]
    have hkeys : (buildNamespaceMap l).map
        (Prod.fst ∘ fun kv => (kv.1, joinWith '|' kv.2)) =
        (buildNamespaceMap l).map Prod.fst := rfl
    rw [hkeys]
  · have hg : (createNsWithQuery (Sum.inr l)).getNs name q =
        (l.find? (fun item =>
          strictEqNs item.«namespace» name && isQueryMatch item.query (some q))).map
          (fun found => joinWith '|' (processNamespace found)) := rfl
    rw [hg, Option.map_eq_none', List.find?_eq_none]
    constructor
    · intro h item hitem hcon
      have := h item hitem
      rw [Bool.and_eq_true] at this
      exact this hcon
    · intro h item hitem
      rw [Bool.and_eq_true]
      exact h item hitem
  · have hg : (Utils.processNamespaces (Sum.inr ul)).getNsById id =
        mapGet (Utils.buildNamespaceMap ul) id := rfl
    rw [hg, mapGet_eq_none]
  · have hg : (Utils.processNamespaces (Sum.inr ul)).getNs name q =
        (ul.find? (fun item =>
          (decide (item.«namespace» = name)) &&
            Utils.isQueryMatch item.query (some q))).map
          (fun found => Utils.processNamespace found) := rfl
    rw [hg, Option.map_eq_none', List.find?_eq_none]
    constructor
    · intro h item hitem hcon
      have := h item hitem
      rw [Bool.and_eq_true, decide_eq_true_eq] at this
      exact this hcon
    · intro h item hitem
      rw [Bool.and_eq_true, decide_eq_true_eq]
      exact h item hitem

/-- Witness for C8 on an empty registry and on a one-descriptor registry. -/
theorem absence_not_found_witness :
    (createNsWithQuery (Sum.inr ([] : List NamespaceWithQuery))).getNsById [] = none ∧
    (createNsWithQuery (Sum.inr
      ([{ id := none, «namespace» := Sum.inl ("a".toList) }] :
        List NamespaceWithQuery))).getNs ("b".toList) [] = none :=
  ⟨(absence_not_found [] [] [] [] []).1.mpr (by decide),
    (absence_not_found [{ id := none, «namespace» := Sum.inl ("a".toList) }]
      [] ("b".toList) [] []).2.1.mpr (by
        intro item hitem
        rw [List.mem_singleton] at hitem
        subst hitem
        rintro ⟨hstr, -⟩
        exact absurd hstr (by decide))⟩

/-! ## Round trip (C2): UTF-8 layer -/

theorem char_valid_nat (c : Char) : c.toNat.isValidChar := c.valid

theorem toNat_ofNat_valid (n : Nat) (h : n.isValidChar) : (Char.ofNat n).toNat = n := by
  simp [Char.ofNat, dif_pos h, Char.ofNatAux, Char.toNat]
  rfl

theorem utf8DecodeStep_one (b : Nat) (rest : List Nat) (h : b < 0x80) :
    utf8DecodeStep b rest = some (b, rest) := by
  unfold utf8DecodeStep
  rw [if_pos h]

theorem utf8DecodeStep_two (b b2 : Nat) (rest : List Nat)
    (h1 : 0xC0 ≤ b) (h2 : b < 0xE0) (h3 : 0x80 ≤ b2) (h4 : b2 < 0xC0)
    (h5 : 0x80 ≤ (b - 0xC0) * 64 + (b2 - 0x80)) :
    utf8DecodeStep b (b2 :: rest) = some ((b - 0xC0) * 64 + (b2 - 0x80), rest) := by
  have hc2 : contVal b2 = some (b2 - 0x80) := by
    unfold contVal; rw [if_pos (And.intro h3 h4)]
  unfold utf8DecodeStep
  rw [if_neg (by omega), if_neg (by omega), if_pos (by omega)]
  dsimp only
  rw [hc2]
  simp only [Option.some_bind]
  rw [if_pos h5]

theorem utf8DecodeStep_three (b b2 b3 : Nat) (rest : List Nat)
    (h1 : 0xE0 ≤ b) (h2 : b < 0xF0) (h3 : 0x80 ≤ b2) (h4 : b2 < 0xC0)
    (h5 : 0x80 ≤ b3) (h6 : b3 < 0xC0)
    (h7 : 0x800 ≤ (b - 0xE0) * 4096 + (b2 - 0x80) * 64 + (b3 - 0x80) ∧
      ((b - 0xE0) * 4096 + (b2 - 0x80) * 64 + (b3 - 0x80) < 0xD800 ∨
        0xDFFF < (b - 0xE0) * 4096 + (b2 - 0x80) * 64 + (b3 - 0x80))) :
    utf8DecodeStep b (b2 :: b3 :: rest) =
      some ((b - 0xE0) * 4096 + (b2 - 0x80) * 64 + (b3 - 0x80), rest) := by
  have hc2 : contVal b2 = some (b2 - 0x80) := by
    unfold contVal; rw [if_pos (And.intro h3 h4)]
  have hc3 : contVal b3 = some (b3 - 0x80) := by
    unfold contVal; rw [if_pos (And.intro h5 h6)]
  unfold utf8DecodeStep
  rw [if_neg (by omega), if_neg (by omega), if_neg (by omega), if_pos (by omega)]
  dsimp only
  rw [hc2]
  simp only [Option.some_bind]
  rw [hc3]
  simp only [Option.some_bind]
  rw [if_pos h7]

theorem utf8DecodeStep_four (b b2 b3 b4 : Nat) (rest : List Nat)
    (h1 : 0xF0 ≤ b) (h2 : b < 0xF8) (h3 : 0x80 ≤ b2) (h4 : b2 < 0xC0)
    (h5 : 0x80 ≤ b3) (h6 : b3 < 0xC0) (h7 : 0x80 ≤ b4) (h8 : b4 < 0xC0)
    (h9 : 0x10000 ≤ (b - 0xF0) * 262144 + (b2 - 0x80) * 4096 + (b3 - 0x80) * 64 + (b4 - 0x80) ∧
      (b - 0xF0) * 262144 + (b2 - 0x80) * 4096 + (b3 - 0x80) * 64 + (b4 - 0x80) < 0x110000) :
    utf8DecodeStep b (b2 :: b3 :: b4 :: rest) =
      some ((b - 0xF0) * 262144 + (b2 - 0x80) * 4096 + (b3 - 0x80) * 64 + (b4 - 0x80), rest) := by
  have hc2 : contVal b2 = some (b2 - 0x80) := by
    unfold contVal; rw [if_pos (And.intro h3 h4)]
  have hc3 : contVal b3 = some (b3 - 0x80) := by
    unfold contVal; rw [if_pos (And.intro h5 h6)]
  have hc4 : contVal b4 = some (b4 - 0x80) := by
    unfold contVal; rw [if_pos (And.intro h7 h8)]
  unfold utf8DecodeStep
  rw [if_neg (by omega), if_neg (by omega), if_neg (by omega), if_neg (by omega),
    if_pos (by omega)]
  dsimp only
  rw [hc2]
  simp only [Option.some_bind]
  rw [hc3]
  simp only [Option.some_bind]
  rw [hc4]
  simp only [Option.some_bind]
  rw [if_pos h9]

theorem utf8EncodeChar_length_cases (v : Nat) :
    (utf8EncodeChar v).length = 1 ∨ (utf8EncodeChar v).length = 2 ∨
    (utf8EncodeChar v).length = 3 ∨ (utf8EncodeChar v).length = 4 := by
  unfold utf8EncodeChar
  split_ifs <;> simp

theorem utf8DecodeAux_strToUtf8 :
    ∀ (s : JStr) (fuel : Nat), (strToUtf8 s).length ≤ fuel →
      utf8DecodeAux fuel (strToUtf8 s) = some s := by
  intro s
  induction s with
  | nil =>
    intro fuel _
    cases fuel <;> rfl
  | cons c cs ih =>
    intro fuel hfuel
    have henc : strToUtf8 (c :: cs) = utf8EncodeChar c.toNat ++ strToUtf8 cs := rfl
    rw [henc] at hfuel ⊢
    have hval2 : c.toNat < 0xd800 ∨ (0xdfff < c.toNat ∧ c.toNat < 0x110000) := char_valid_nat c
    obtain _ | fuel := fuel
    · exfalso
      rcases utf8EncodeChar_length_cases c.toNat with hk | hk | hk | hk <;>
        (rw [List.length_append, hk] at hfuel; omega)
    · have hih : ∀ k, (utf8EncodeChar c.toNat).length = k → 1 ≤ k →
          (strToUtf8 cs).length ≤ fuel := by
        intro k hk h1
        rw [List.length_append, hk] at hfuel
        omega
      by_cases r1 : c.toNat < 0x80
      · have he : utf8EncodeChar c.toNat = [c.toNat] := by
          unfold utf8EncodeChar; rw [if_pos r1]
        rw [he]
        simp only [List.cons_append, List.nil_append, List.append_eq, utf8DecodeAux]
        rw [utf8DecodeStep_one c.toNat (strToUtf8 cs) r1]
        simp only [Option.some_bind]
        rw [ih fuel (hih 1 (by rw [he]; rfl) (by omega))]
        simp only [Option.map_some']
        rw [Char.ofNat_toNat]
      · by_cases r2 : c.toNat < 0x800
        · have he : utf8EncodeChar c.toNat =
              [0xC0 + c.toNat / 64, 0x80 + c.toNat % 64] := by
            unfold utf8EncodeChar; rw [if_neg r1, if_pos r2]
          rw [he]
          simp only [List.cons_append, List.nil_append, List.append_eq, utf8DecodeAux]
          have hstep := utf8DecodeStep_two (0xC0 + c.toNat / 64) (0x80 + c.toNat % 64)
            (strToUtf8 cs) (by omega) (by omega) (by omega) (by omega) (by omega)
          rw [hstep]
          simp only [Option.some_bind]
          rw [ih fuel (hih 2 (by rw [he]; rfl) (by omega))]
          simp only [Option.map_some']
          rw [show (0xC0 + c.toNat / 64 - 0xC0) * 64 + (0x80 + c.toNat % 64 - 0x80) =
            c.toNat from by omega, Char.ofNat_toNat]
        · by_cases r3 : c.toNat < 0x10000
          · have he : utf8EncodeChar c.toNat =
                [0xE0 + c.toNat / 4096, 0x80 + c.toNat / 64 % 64, 0x80 + c.toNat % 64] := by
              unfold utf8EncodeChar; rw [if_neg r1, if_neg r2, if_pos r3]
            rw [he]
            simp only [List.cons_append, List.nil_append, List.append_eq, utf8DecodeAux]
            have hstep := utf8DecodeStep_three (0xE0 + c.toNat / 4096)
              (0x80 + c.toNat / 64 % 64) (0x80 + c.toNat % 64) (strToUtf8 cs)
              (by omega) (by omega) (by omega) (by omega) (by omega) (by omega) (by omega)
            rw [hstep]
            simp only [Option.some_bind]
            rw [ih fuel (hih 3 (by rw [he]; rfl) (by omega))]
            simp only [Option.map_some']
            rw [show (0xE0 + c.toNat / 4096 - 0xE0) * 4096 +
              (0x80 + c.toNat / 64 % 64 - 0x80) * 64 + (0x80 + c.toNat % 64 - 0x80) =
              c.toNat from by omega, Char.ofNat_toNat]
          · have he : utf8EncodeChar c.toNat =
                [0xF0 + c.toNat / 262144, 0x80 + c.toNat / 4096 % 64,
                  0x80 + c.toNat / 64 % 64, 0x80 + c.toNat % 64] := by
              unfold utf8EncodeChar; rw [if_neg r1, if_neg r2, if_neg r3]
            rw [he]
            simp only [List.cons_append, List.nil_append, List.append_eq, utf8DecodeAux]
            have hstep := utf8DecodeStep_four (0xF0 + c.toNat / 262144)
              (0x80 + c.toNat / 4096 % 64) (0x80 + c.toNat / 64 % 64) (0x80 + c.toNat % 64)
              (strToUtf8 cs) (by omega) (by omega) (by omega) (by omega)
              (by omega) (by omega) (by omega) (by omega) (by omega)
            rw [hstep]
            simp only [Option.some_bind]
            rw [ih fuel (hih 4 (by rw [he]; rfl) (by omega))]
            simp only [Option.map_some']
            rw [show (0xF0 + c.toNat / 262144 - 0xF0) * 262144 +
              (0x80 + c.toNat / 4096 % 64 - 0x80) * 4096 +
              (0x80 + c.toNat / 64 % 64 - 0x80) * 64 + (0x80 + c.toNat % 64 - 0x80) =
              c.toNat from by omega, Char.ofNat_toNat]

theorem utf8Decode_strToUtf8 (s : JStr) : utf8Decode (strToUtf8 s) = some s := by
  unfold utf8Decode
  exact utf8DecodeAux_strToUtf8 s _ (Nat.le_refl _)

/-! ## Round trip (C2): percent-encoding layer -/

theorem utf8EncodeChar_bytes_lt (v : Nat) (hv : v < 0x110000) :
    ∀ b ∈ utf8EncodeChar v, b < 0x100 := by
  intro b hb
  unfold utf8EncodeChar at hb
  split_ifs at hb <;>
    simp only [List.mem_cons, List.not_mem_nil, or_false] at hb <;> omega

theorem isSafeByte_facts (b : Nat) (h : isSafeByte b = true) :
    b < 0x80 ∧ b ≠ 0x25 ∧ b ≠ 0x2B ∧ b ≠ 0x20 ∧ b ≠ 0x24 ∧ b ≠ 0x26 ∧
    b ≠ 0x3D ∧ b ≠ 0x3F := by
  unfold isSafeByte at h
  simp only [Bool.or_eq_true, beq_iff_eq, Bool.and_eq_true, decide_eq_true_eq] at h
  omega

theorem hexDigitChar_toNat (n : Nat) (h : n < 16) :
    (hexDigitChar n).toNat = if n < 10 then 48 + n else 55 + n := by
  unfold hexDigitChar
  by_cases hn : n < 10
  · rw [if_pos hn, if_pos hn, toNat_ofNat_valid _ (Or.inl (by omega))]
  · rw [if_neg hn, if_neg hn, toNat_ofNat_valid _ (Or.inl (by omega))]

theorem hexDigitChar_toNat_lt (n : Nat) (h : n < 16) : (hexDigitChar n).toNat < 0x80 := by
  rw [hexDigitChar_toNat n h]
  split <;> omega

theorem hexValByte_hexDigitChar (n : Nat) (h : n < 16) :
    hexValByte ((hexDigitChar n).toNat) = some n := by
  rw [hexDigitChar_toNat n h]
  unfold hexValByte
  by_cases hn : n < 10
  · rw [if_pos hn, if_pos (by omega)]
    simp only [Option.some.injEq]
    omega
  · rw [if_neg hn, if_neg (by omega), if_pos (by omega)]
    simp only [Option.some.injEq]
    omega

/-- The byte sequence one input byte contributes after serialization,
    plus-to-space replacement and re-reading as bytes. -/
def encByte (b : Nat) : List Nat :=
  if b = 0x20 then [0x20]
  else if isSafeByte b then [b]
  else [0x25, (hexDigitChar (b / 16)).toNat, (hexDigitChar (b % 16)).toNat]

theorem strToUtf8_percentEncodeByte (b : Nat) (hb : b < 0x100) :
    strToUtf8 ((percentEncodeByte b).map (fun c => if c = '+' then ' ' else c)) =
      encByte b := by
  unfold percentEncodeByte encByte
  by_cases h1 : b = 0x20
  · rw [if_pos h1, if_pos h1]
    decide
  · by_cases h2 : isSafeByte b
    · rw [if_neg h1, if_pos h2, if_neg h1, if_pos h2]
      obtain ⟨hb80, h25, h2B, h20x, _⟩ := isSafeByte_facts b h2
      have hne : (Char.ofNat b) ≠ '+' := by
        intro hc
        have hcn := congrArg Char.toNat hc
        rw [toNat_ofNat_valid b (Or.inl (by omega))] at hcn
        rw [show ('+').toNat = 0x2B from rfl] at hcn
        exact h2B hcn
      simp only [List.map_cons, List.map_nil, if_neg hne]
      unfold strToUtf8
      simp only [List.flatMap_cons, List.flatMap_nil, List.append_nil]
      rw [toNat_ofNat_valid b (Or.inl (by omega))]
      unfold utf8EncodeChar
      rw [if_pos (by omega)]
    · rw [if_neg h1, if_neg h2, if_neg h1, if_neg h2]
      have hhi : b / 16 < 16 := by omega
      have hlo : b % 16 < 16 := by omega
      have hph : ∀ n, n < 16 → hexDigitChar n ≠ '+' := by
        intro n hn hc
        have hcn := congrArg Char.toNat hc
        rw [hexDigitChar_toNat n hn, show ('+').toNat = 0x2B from rfl] at hcn
        split at hcn <;> omega
      have hp1 : ('%') ≠ '+' := by decide
      simp only [List.map_cons, List.map_nil, if_neg hp1, if_neg (hph _ hhi),
        if_neg (hph _ hlo)]
      have henc : ∀ n, n < 16 →
          utf8EncodeChar (hexDigitChar n).toNat = [(hexDigitChar n).toNat] := by
        intro n hn
        unfold utf8EncodeChar
        rw [if_pos (hexDigitChar_toNat_lt n hn)]
      unfold strToUtf8
      simp only [List.flatMap_cons, List.flatMap_nil, List.append_nil]
      rw [show utf8EncodeChar ('%').toNat = [0x25] from by decide,
        henc _ hhi, henc _ hlo]
      rfl

theorem percentDecodeBytes_cons_ne (b : Nat) (rest : List Nat) (hb : b ≠ 0x25) :
    percentDecodeBytes (b :: rest) = b :: percentDecodeBytes rest := by
  rcases rest with _ | ⟨x, _ | ⟨y, t⟩⟩
  · rfl
  · rfl
  · simp only [percentDecodeBytes]
    rw [if_neg hb]

theorem percentDecodeBytes_triple (b1 b2 : Nat) (v1 v2 : Nat) (rest : List Nat)
    (e1 : hexValByte b1 = some v1) (e2 : hexValByte b2 = some v2) :
    percentDecodeBytes (0x25 :: b1 :: b2 :: rest) =
      (16 * v1 + v2) :: percentDecodeBytes rest := by
  simp only [percentDecodeBytes, e1, e2]
  rw [if_pos trivial]

theorem percentDecodeBytes_encByte (b : Nat) (hb : b < 0x100) (rest : List Nat) :
    percentDecodeBytes (encByte b ++ rest) = b :: percentDecodeBytes rest := by
  unfold encByte
  by_cases h1 : b = 0x20
  · rw [if_pos h1]
    subst h1
    simp only [List.cons_append, List.nil_append]
    exact percentDecodeBytes_cons_ne _ _ (by omega)
  · by_cases h2 : isSafeByte b
    · rw [if_neg h1, if_pos h2]
      simp only [List.cons_append, List.nil_append]
      exact percentDecodeBytes_cons_ne _ _ (isSafeByte_facts b h2).2.1
    · rw [if_neg h1, if_neg h2]
      simp only [List.cons_append, List.nil_append]
      rw [percentDecodeBytes_triple _ _ (b / 16) (b % 16) rest
        (hexValByte_hexDigitChar _ (by omega)) (hexValByte_hexDigitChar _ (by omega))]
      congr 1
      omega

theorem char_toNat_lt (c : Char) : c.toNat < 0x110000 := by
  have h : c.toNat < 0xd800 ∨ (0xdfff < c.toNat ∧ c.toNat < 0x110000) := char_valid_nat c
  omega

theorem strToUtf8_bytes_lt (s : JStr) : ∀ b ∈ strToUtf8 s, b < 0x100 := by
  intro b hb
  unfold strToUtf8 at hb
  obtain ⟨c, _, hbc⟩ := List.mem_flatMap.mp hb
  exact utf8EncodeChar_bytes_lt c.toNat (char_toNat_lt c) b hbc

theorem strToUtf8_map_plusToSpace (bytes : List Nat) (h : ∀ b ∈ bytes, b < 0x100) :
    strToUtf8 ((bytes.flatMap percentEncodeByte).map (fun c => if c = '+' then ' ' else c)) =
      bytes.flatMap encByte := by
  induction bytes with
  | nil => rfl
  | cons b t ih =>
    simp only [List.flatMap_cons, List.map_append]
    have hsplit : ∀ (x y : JStr), strToUtf8 (x ++ y) = strToUtf8 x ++ strToUtf8 y := by
      intro x y
      unfold strToUtf8
      exact List.flatMap_append x y _
    rw [hsplit, strToUtf8_percentEncodeByte b (h b (by simp)),
      ih (fun b2 hb2 => h b2 (by simp [hb2]))]

theorem percentDecodeBytes_flatMap_encByte (bytes : List Nat)
    (h : ∀ b ∈ bytes, b < 0x100) :
    percentDecodeBytes (bytes.flatMap encByte) = bytes := by
  induction bytes with
  | nil => rfl
  | cons b t ih =>
    simp only [List.flatMap_cons]
    rw [percentDecodeBytes_encByte b (h b (by simp)),
      ih (fun b2 hb2 => h b2 (by simp [hb2]))]

theorem decodeComponent_urlencodeStr (s : JStr) : decodeComponent (urlencodeStr s) = s := by
  unfold decodeComponent urlencodeStr
  rw [strToUtf8_map_plusToSpace (strToUtf8 s) (strToUtf8_bytes_lt s),
    percentDecodeBytes_flatMap_encByte (strToUtf8 s) (strToUtf8_bytes_lt s),
    utf8Decode_strToUtf8]
  rfl

theorem urlencodeStr_toNat_facts (s : JStr) (c : Char) (hc : c ∈ urlencodeStr s) :
    c.toNat ≠ 0x24 ∧ c.toNat ≠ 0x26 ∧ c.toNat ≠ 0x3D ∧ c.toNat ≠ 0x3F := by
  unfold urlencodeStr at hc
  obtain ⟨b, hb, hcb⟩ := List.mem_flatMap.mp hc
  have hblt : b < 0x100 := strToUtf8_bytes_lt s b hb
  unfold percentEncodeByte at hcb
  by_cases h1 : b = 0x20
  · rw [if_pos h1] at hcb
    simp only [List.mem_singleton] at hcb
    subst hcb
    decide
  · rw [if_neg h1] at hcb
    by_cases h2 : isSafeByte b
    · rw [if_pos h2] at hcb
      simp only [List.mem_singleton] at hcb
      subst hcb
      obtain ⟨hb80, _, _, _, h24, h26, h3D, h3F⟩ := isSafeByte_facts b h2
      rw [toNat_ofNat_valid b (Or.inl (by omega))]
      omega
    · rw [if_neg h2] at hcb
      simp only [List.mem_cons, List.not_mem_nil, or_false] at hcb
      have hhex : ∀ n, n < 16 → (hexDigitChar n).toNat ≠ 0x24 ∧
          (hexDigitChar n).toNat ≠ 0x26 ∧ (hexDigitChar n).toNat ≠ 0x3D ∧
          (hexDigitChar n).toNat ≠ 0x3F := by
        intro n hn
        rw [hexDigitChar_toNat n hn]
        split <;> omega
      rcases hcb with rfl | rfl | rfl
      · decide
      · exact hhex _ (by omega)
      · exact hhex _ (by omega)

theorem dollar_not_mem_urlencodeStr (s : JStr) : ('$') ∉ urlencodeStr s :=
  fun hc => (urlencodeStr_toNat_facts s _ hc).1 rfl

theorem amp_not_mem_urlencodeStr (s : JStr) : ('&') ∉ urlencodeStr s :=
  fun hc => (urlencodeStr_toNat_facts s _ hc).2.1 rfl

theorem eq_not_mem_urlencodeStr (s : JStr) : ('=') ∉ urlencodeStr s :=
  fun hc => (urlencodeStr_toNat_facts s _ hc).2.2.1 rfl

theorem qmark_not_mem_urlencodeStr (s : JStr) : ('?') ∉ urlencodeStr s :=
  fun hc => (urlencodeStr_toNat_facts s _ hc).2.2.2 rfl

/-! ## Round trip (C2): splitting layer -/

theorem splitOnChar_not_mem (sep : Char) (s : JStr) (h : sep ∉ s) :
    splitOnChar sep s = [s] := by
  induction s with
  | nil => rfl
  | cons c t ih =>
    have hcs : c ≠ sep := fun hc => h (hc ▸ List.mem_cons_self c t)
    have ht : sep ∉ t := fun hm => h (List.mem_cons_of_mem c hm)
    unfold splitOnChar
    rw [if_neg hcs, ih ht]

theorem splitOnChar_append (sep : Char) (a b : JStr) (h : sep ∉ a) :
    splitOnChar sep (a ++ sep :: b) = a :: splitOnChar sep b := by
  induction a with
  | nil =>
    simp only [List.nil_append]
    conv_lhs => unfold splitOnChar
    rw [if_pos rfl]
  | cons c t ih =>
    have hcs : c ≠ sep := fun hc => h (hc ▸ List.mem_cons_self c t)
    have ht : sep ∉ t := fun hm => h (List.mem_cons_of_mem c hm)
    simp only [List.cons_append]
    conv_lhs => unfold splitOnChar
    rw [if_neg hcs, ih ht]

theorem splitFirstOn_append (sep : Char) (a b : JStr) (h : sep ∉ a) :
    splitFirstOn sep (a ++ sep :: b) = some (a, b) := by
  induction a with
  | nil =>
    simp only [List.nil_append]
    conv_lhs => unfold splitFirstOn
    rw [if_pos rfl]
  | cons c t ih =>
    have hcs : c ≠ sep := fun hc => h (hc ▸ List.mem_cons_self c t)
    have ht : sep ∉ t := fun hm => h (List.mem_cons_of_mem c hm)
    simp only [List.cons_append]
    conv_lhs => unfold splitFirstOn
    rw [if_neg hcs, ih ht]
    rfl

theorem splitOnChar_joinWith (sep : Char) :
    ∀ (pieces : List JStr), pieces ≠ [] → (∀ p ∈ pieces, sep ∉ p) →
      splitOnChar sep (joinWith sep pieces) = pieces
  | [], hne, _ => absurd rfl hne
  | [x], _, hp => by
    unfold joinWith
    exact splitOnChar_not_mem sep x (hp x (by simp))
  | x :: y :: t, _, hp => by
    have hj : joinWith sep (x :: y :: t) = x ++ sep :: joinWith sep (y :: t) := rfl
    rw [hj, splitOnChar_append sep x _ (hp x (by simp)),
      splitOnChar_joinWith sep (y :: t) (by simp)
        (fun p hmem => hp p (List.mem_cons_of_mem x hmem))]

/-! ## Round trip (C2): serializer and parser -/

theorem mem_joinWith (sep : Char) (c : Char) :
    ∀ (pieces : List JStr), c ∈ joinWith sep pieces → c = sep ∨ ∃ p ∈ pieces, c ∈ p
  | [], h => absurd h (List.not_mem_nil c)
  | [x], h => Or.inr ⟨x, by simp, h⟩
  | x :: y :: t, h => by
    have hj : joinWith sep (x :: y :: t) = x ++ sep :: joinWith sep (y :: t) := rfl
    rw [hj] at h
    rcases List.mem_append.mp h with hx | hrest
    · exact Or.inr ⟨x, by simp, hx⟩
    · rcases List.mem_cons.mp hrest with heq | hj2
      · exact Or.inl heq
      · rcases mem_joinWith sep c (y :: t) hj2 with hs | ⟨p, hp, hcp⟩
        · exact Or.inl hs
        · exact Or.inr ⟨p, List.mem_cons_of_mem x hp, hcp⟩

theorem mem_serializeQuery (c : Char) (q : List (JStr × JStr))
    (h : c ∈ serializeQuery q) :
    c = '&' ∨ c = '=' ∨ ∃ s, c ∈ urlencodeStr s := by
  unfold serializeQuery at h
  rcases mem_joinWith '&' c _ h with heq | ⟨p, hp, hcp⟩
  · exact Or.inl heq
  · obtain ⟨kv, _, hkv⟩ := List.mem_map.mp hp
    rw [← hkv] at hcp
    rcases List.mem_append.mp hcp with h1 | h2
    · exact Or.inr (Or.inr ⟨kv.1, h1⟩)
    · rcases List.mem_cons.mp h2 with heq | h3
      · exact Or.inr (Or.inl heq)
      · exact Or.inr (Or.inr ⟨kv.2, h3⟩)

theorem dollar_not_mem_serializeQuery (q : List (JStr × JStr)) :
    ('$') ∉ serializeQuery q := by
  intro h
  rcases mem_serializeQuery _ q h with h | h | ⟨s, hs⟩
  · exact absurd h (by decide)
  · exact absurd h (by decide)
  · exact dollar_not_mem_urlencodeStr s hs

theorem qmark_not_mem_serializeQuery (q : List (JStr × JStr)) :
    ('?') ∉ serializeQuery q := by
  intro h
  rcases mem_serializeQuery _ q h with h | h | ⟨s, hs⟩
  · exact absurd h (by decide)
  · exact absurd h (by decide)
  · exact qmark_not_mem_urlencodeStr s hs

theorem amp_not_mem_piece (k v : JStr) :
    ('&') ∉ urlencodeStr k ++ '=' :: urlencodeStr v := by
  intro h
  rcases List.mem_append.mp h with h1 | h2
  · exact amp_not_mem_urlencodeStr k h1
  · rcases List.mem_cons.mp h2 with heq | h3
    · exact absurd heq (by decide)
    · exact amp_not_mem_urlencodeStr v h3

theorem joinWith_cons_ne_nil (sep : Char) (x : JStr) (hx : x ≠ []) :
    ∀ t, joinWith sep (x :: t) ≠ []
  | [] => hx
  | y :: t => by
    have hj : joinWith sep (x :: y :: t) = x ++ sep :: joinWith sep (y :: t) := rfl
    rw [hj]
    simp

theorem serializeQuery_ne_nil (q : List (JStr × JStr)) (h : q ≠ []) :
    serializeQuery q ≠ [] := by
  obtain ⟨kv, rest, rfl⟩ := List.exists_cons_of_ne_nil h
  unfold serializeQuery
  simp only [List.map_cons]
  exact joinWith_cons_ne_nil '&' _ (by simp) _

theorem filterMap_parse_pieces (q : List (JStr × JStr)) :
    (q.map (fun kv => urlencodeStr kv.1 ++ '=' :: urlencodeStr kv.2)).filterMap
      (fun piece =>
        if piece = [] then none
        else
          match splitFirstOn '=' piece with
          | some kv => some (decodeComponent kv.1, decodeComponent kv.2)
          | none => some (decodeComponent piece, [])) = q := by
  induction q with
  | nil => rfl
  | cons kv t ih =>
    simp only [List.map_cons, List.filterMap_cons]
    rw [if_neg (by simp), splitFirstOn_append ('=') _ _ (eq_not_mem_urlencodeStr kv.1)]
    simp only [decodeComponent_urlencodeStr]
    rw [ih]

theorem parseQuery_serializeQuery (q : List (JStr × JStr)) :
    parseQuery (serializeQuery q) = q := by
  cases q with
  | nil => rfl
  | cons kv0 rest0 =>
    unfold parseQuery
    have hq : ('?') ∉ serializeQuery (kv0 :: rest0) := qmark_not_mem_serializeQuery _
    have hhead : ¬ ((serializeQuery (kv0 :: rest0)).head? = some ('?')) := by
      intro hh
      cases hs : serializeQuery (kv0 :: rest0) with
      | nil => rw [hs] at hh; simp at hh
      | cons c tl =>
        rw [hs] at hh
        simp only [List.head?_cons, Option.some.injEq] at hh
        rw [hs] at hq
        exact hq (hh ▸ List.mem_cons_self c tl)
    rw [if_neg hhead]
    have hsplit : splitOnChar '&' (serializeQuery (kv0 :: rest0)) =
        (kv0 :: rest0).map (fun kv => urlencodeStr kv.1 ++ '=' :: urlencodeStr kv.2) := by
      unfold serializeQuery
      refine splitOnChar_joinWith '&' _ (by simp) ?_
      intro p hp
      obtain ⟨kv, _, hkv⟩ := List.mem_map.mp hp
      rw [← hkv]
      exact amp_not_mem_piece kv.1 kv.2
    dsimp only
    rw [hsplit, filterMap_parse_pieces]

/-! ## Round trip (C2): main theorem -/

theorem splitNamespace_token (B qs : JStr) (hB : ('$') ∉ B) (hqs : ('$') ∉ qs) :
    Backend.splitNamespace (B ++ '$' :: qs) = (B, qs) := by
  unfold Backend.splitNamespace
  rw [splitOnChar_append ('$') B qs hB, splitOnChar_not_mem ('$') qs hqs]
  rfl

/-- C2: for a descriptor whose base namespace contains no `$` and whose query
    is a non-empty string-to-string mapping, encoding with `processNamespace`
    and then splitting the token on the `$` (the backend's `splitNamespace`)
    and parsing the remainder as a URL query string returns exactly the base
    and exactly the original mapping. -/
theorem encode_decode_round_trip (B : JStr) (P : List (JStr × JStr)) (id? : Option JStr)
    (hB : ('$') ∉ B) (hP : P ≠ []) (_hkeys : (P.map Prod.fst).Nodup) :
    (Backend.splitNamespace ((processNamespace
        { id := id?, «namespace» := Sum.inl B, query := some P }).headI)).1 = B ∧
    parseQuery ((Backend.splitNamespace ((processNamespace
        { id := id?, «namespace» := Sum.inl B, query := some P }).headI)).2) = P := by
  have hser : serializeQuery P ≠ [] := serializeQuery_ne_nil P hP
  have htok : (processNamespace
      { id := id?, «namespace» := Sum.inl B, query := some P }).headI =
      B ++ '$' :: serializeQuery P := by
    simp only [processNamespace, Option.getD_some, List.headI]
    rw [if_neg hser]
  rw [htok, splitNamespace_token B _ hB (dollar_not_mem_serializeQuery P)]
  exact ⟨rfl, parseQuery_serializeQuery P⟩

/-- Witness for C2 on `{namespace: "comments", query: {postId: "5"}}`. -/
theorem encode_decode_round_trip_witness :
    (('$') ∉ ("comments".toList)) ∧
    ([(("postId".toList), ("5".toList))] : List (JStr × JStr)) ≠ [] ∧
    (([(("postId".toList), ("5".toList))] :
       List (JStr × JStr)).map Prod.fst).Nodup ∧
    ((Backend.splitNamespace ((processNamespace
        { id := none, «namespace» := Sum.inl ("comments".toList),
          query := some [(("postId".toList), ("5".toList))] }).headI)).1 =
      ("comments".toList) ∧
    parseQuery ((Backend.splitNamespace ((processNamespace
        { id := none, «namespace» := Sum.inl ("comments".toList),
          query := some [(("postId".toList), ("5".toList))] }).headI)).2) =
      [(("postId".toList), ("5".toList))]) :=
  ⟨by decide, by decide, by decide,
    encode_decode_round_trip _ _ none (by decide) (by decide) (by decide)⟩
